import Mathlib

/-!
# ashell: line editor, history and command dispatch

A shallow embedding of `src/ashell.cpp`.

Conventions of the embedding:
* a C++ `char` is a Lean `Char`; the program only compares characters with
  ASCII constants, it never does arithmetic on them;
* a `std::string` and a `vector<char>` are both `List Char`, a
  `vector<string>` is a `List (List Char)`;
* the global `cmdHistory` is passed explicitly;
* bytes written to the terminal are collected in a list (`out`).
-/

namespace Ashell

/-- A `std::string`. -/
abbrev Str := List Char

/-! ## History store (lines 36-61) -/

/-- Line 36: `const int maxCmdHistory = 10;`. -/
def maxCmdHistory : Nat := 10

/-- Function `addCmdToHistory`: when the store already holds `maxCmdHistory` entries
the first one is erased (`cmdHistory.erase(cmdHistory.begin())`), then the
new command is pushed at the back. -/
def addCmdToHistory (cmdHistory : List Str) (cmd : Str) : List Str :=
  let cmdHistory := if cmdHistory.length ≥ maxCmdHistory then cmdHistory.tail else cmdHistory
  cmdHistory ++ [cmd]

/-- Recording the lines of a list one after another, oldest first. -/
def recordAll (cmdHistory : List Str) (lines : List Str) : List Str :=
  lines.foldl addCmdToHistory cmdHistory

/-! ## Tokenizer (lines 332-348)

`split` drives `std::getline` on a `stringstream`. The stream is modelled by
the characters not yet extracted together with its `good()` state. -/

/-- A `std::stringstream` opened on a string: the characters still to be
extracted, and whether the stream is `good()` (neither `eofbit` nor `failbit`
is set). -/
structure IStream where
  buf : List Char
  good : Bool
deriving DecidableEq

/-- The extraction loop of `std::getline`: characters are appended to `item`
until the delimiter is met (it is extracted and dropped, `some rest` is what
remains in the stream) or the input ends (`none`: end of file was hit). -/
def getlineScan (delim : Char) : Str → List Char → Str × Option (List Char)
  | item, [] => (item, none)
  | item, c :: cs =>
    if c = delim then (item, some cs) else getlineScan delim (item ++ [c]) cs

/-- Library call `std::getline(ss, item, delim)`; the third component is the truth value of
the returned stream (`!fail()`).
* On a stream that is not `good()` the sentry fails: `failbit`, `item` is left alone.
* Otherwise `item` is erased and characters are extracted. Meeting the
  delimiter leaves the stream good. Hitting the end of input sets `eofbit`,
  and also `failbit` when no character at all was extracted. -/
def getline (ss : IStream) (item : Str) (delim : Char) : IStream × Str × Bool :=
  if ss.good then
    match getlineScan delim [] ss.buf with
    | (item, some rest) => (⟨rest, true⟩, item, true)
    | (item, none) => (⟨[], false⟩, item, !item.isEmpty)
  else (ss, item, false)

/-- Termination measure of the loop of `split`. -/
def IStream.measure (ss : IStream) : Nat := ss.buf.length + (if ss.good then 1 else 0)

set_option linter.unusedVariables false in
/-- The loop `while (getline(ss, item, delim)) elems.push_back(item);`. -/
def splitLoop (delim : Char) (ss : IStream) (item : Str) (elems : List Str) : List Str :=
  match h : getline ss item delim with
  | (ss1, item1, true) => splitLoop delim ss1 item1 (elems ++ [item1])
  | (_, _, false) => elems
termination_by ss.measure
decreasing_by
  have scan : ∀ (buf acc rest : List Char) (it : Str),
      getlineScan delim acc buf = (it, some rest) → rest.length < buf.length := by
    intro buf
    induction buf with
    | nil => intro acc rest it hs; simp [getlineScan] at hs
    | cons c cs ih =>
      intro acc rest it hs
      simp only [getlineScan] at hs
      split at hs
      · simp only [Prod.mk.injEq, Option.some.injEq] at hs
        rw [← hs.2]; simp
      · have := ih _ _ _ hs
        simp only [List.length_cons]; omega
  unfold getline at h
  split at h
  · rename_i hg
    split at h
    · rename_i it rest hs
      simp only [Prod.mk.injEq, and_true] at h
      have := scan ss.buf [] rest it hs
      rw [← h.1]
      simp only [IStream.measure, hg, if_true]; omega
    · simp only [Prod.mk.injEq] at h
      rw [← h.1]
      simp [IStream.measure, hg]
  · simp at h

/-- Function `split(s, delim, elems)`: `stringstream ss(s); string item;` then the loop. -/
def split (s : Str) (delim : Char) (elems : List Str) : List Str :=
  splitLoop delim ⟨s, true⟩ [] elems

/-- Function `ashParseCmdLine(cmdline, delim)`: `split` into a fresh vector. -/
def ashParseCmdLine (cmdline : Str) (delim : Char) : List Str :=
  split cmdline delim []

/-! ## Redirection extraction (lines 374-388) -/

/-- The scan `for (int i = 0; i < args.size(); i++)` of `ashMainLoop`.
`pre` holds the tokens `args[0..i)` already passed, the second argument the
tokens `args[i..]`. At the first token equal to `>` the loop sets
`redirect = true`, takes `rfile = args[i+1]` unless `i` is the last index,
erases `args[i..]` (leaving `pre`) and breaks. Without such a token the
vector is left alone. The result is `(args, redirect, rfile)`. -/
def scanRedirect : List Str → List Str → List Str × Bool × Str
  | pre, [] => (pre, false, [])
  | pre, t :: rest =>
    if t = ">".toList then
      match rest with
      | [] => (pre, true, [])
      | next :: _ => (pre, true, next)
    else scanRedirect (pre ++ [t]) rest

/-- Lines 374-388 on the freshly parsed token vector. -/
def extractRedirect (args : List Str) : List Str × Bool × Str :=
  scanRedirect [] args

/-! ## Command registry (lines 38, 430-435) -/

/-- The functions whose addresses are stored in `supportedCmds`. -/
inductive Builtin where
  | ashCd
  | ashLs
  | ashPwd
  | ashHistory
deriving DecidableEq

/-- The map `supportedCmds` as filled by `main`; `none` is the `NULL`
pointer stored under `exit`. -/
def supportedCmds : List (Str × Option Builtin) :=
  [("cd".toList, some Builtin.ashCd),
   ("ls".toList, some Builtin.ashLs),
   ("pwd".toList, some Builtin.ashPwd),
   ("history".toList, some Builtin.ashHistory),
   ("exit".toList, none)]

/-- Lookup `supportedCmds.find(name)`: `none` stands for `supportedCmds.end()`. -/
def findCmd (name : Str) : Option (Option Builtin) :=
  supportedCmds.lookup name

/-! ## One iteration of `ashMainLoop` (lines 363-424)

The iteration is taken from the point where `ashReadLine` has returned the
finished line. What it does to the outside world is recorded as a list of
events, in order. The file system enters through `canOpen`: `canOpen rfile`
tells whether `fopen(rfile, "w")` succeeds; when it does not, `fopen` returns
the null pointer, which line 401 stores in `fp` unchecked. -/

/-- Effects of one iteration on the outside world. -/
inductive Event where
  /-- Call `owrite(str, len)` on `stdout`. -/
  | owrite (str : Str)
  /-- Call `ewrite(str, len)` on `stderr`. -/
  | ewrite (str : Str)
  /-- Call `fopen(rfile, "w")` in the shell process. -/
  | fopen (rfile : Str)
  /-- Call `fclose(fp)` of the file opened on `rfile`. -/
  | fclose (rfile : Str)
  /-- Handler call `(*cmdfxn)(arg, fp)`; `fp = none` is `stdout`, `some rfile` the file
  opened on `rfile`. -/
  | call (cmdfxn : Builtin) (arg : Str) (fp : Option Str)
  /-- Handler call `(*cmdfxn)(arg, fp)` with `fp` the null pointer that a
  failed `fopen` returned. -/
  | callNull (cmdfxn : Builtin) (arg : Str)
  /-- Call `executeCmd(cmd, args, rfile)`: fork and exec of an external program. -/
  | executeCmd (cmd : Str) (args : List Str) (rfile : Str)
deriving DecidableEq

/-- How an iteration of the `do ... while (true)` loop ends. -/
inductive Outcome where
  /-- The body ended or hit `continue`: the loop goes on to the next prompt. -/
  | next
  /-- The statement `return` of line 410. -/
  | exit
  /-- Undefined behaviour: `args[0]` read from an empty vector, a call
  through a null function pointer, or a null `FILE*` handed to a handler and
  to `fclose`. -/
  | undefined
deriving DecidableEq

/-- State after one iteration. -/
structure IterResult where
  cmdHistory : List Str
  events : List Event
  outcome : Outcome
deriving DecidableEq

/-- The text of the error of line 396. -/
def syntaxErrorMsg : Str := "Syntax error. Specify filename after >\n".toList

/-- Lines 363-424 of `ashMainLoop`, for the line `cmdline` returned by
`ashReadLine`. With a redirection target that cannot be opened, `fp` is null:
the external branch and `exit` never use `fp`; the built-in branch hands it
to the handler and then to `fclose`, which is undefined behaviour. -/
def ashMainLoopBody (canOpen : Str → Bool) (cmdHistory : List Str) (cmdline : Str) :
    IterResult :=
  let ev := [Event.owrite ['\n']]
  if cmdline.isEmpty then ⟨cmdHistory, ev, Outcome.next⟩
  else
    let cmdHistory := addCmdToHistory cmdHistory cmdline
    match extractRedirect (ashParseCmdLine cmdline ' ') with
    | (args, redirect, rfile) =>
      if redirect && rfile.isEmpty then
        ⟨cmdHistory, ev ++ [Event.ewrite syntaxErrorMsg], Outcome.next⟩
      else
        let ev := if redirect then ev ++ [Event.fopen rfile] else ev
        let fp : Option Str := if redirect then some rfile else none
        let fpNull : Bool := redirect && !canOpen rfile
        match args with
        | [] => ⟨cmdHistory, ev, Outcome.undefined⟩
        | args0 :: _ =>
          match findCmd args0 with
          | none => ⟨cmdHistory, ev ++ [Event.executeCmd args0 args rfile], Outcome.next⟩
          | some cmdfxn =>
            if args0 = "exit".toList then ⟨cmdHistory, ev, Outcome.exit⟩
            else
              let arg : Str := if args.length > 1 then args.getD 1 [] else []
              match cmdfxn with
              | none => ⟨cmdHistory, ev, Outcome.undefined⟩
              | some f =>
                if fpNull then ⟨cmdHistory, ev ++ [Event.callNull f arg], Outcome.undefined⟩
                else
                  let ev := ev ++ [Event.call f arg fp]
                  let ev := if redirect then ev ++ [Event.fclose rfile] else ev
                  ⟨cmdHistory, ev, Outcome.next⟩

/-! ## Key classifier (lines 170-184) -/

/-- The enumeration `KeyType::TypeCode` of `keytype.h` (the header is not part
of the sources at hand; these are the five enumerators `ashell.cpp` uses). -/
inductive KeyType where
  | REGULAR
  | BACKSPACE
  | DEL
  | UP_ARROW
  | DOWN_ARROW
deriving DecidableEq

/-- Function `getKeyType(c)`: the `switch` over the value of the byte. -/
def getKeyType (c : Char) : KeyType :=
  if c.toNat = 0x7F then KeyType.DEL
  else if c.toNat = 0x08 then KeyType.BACKSPACE
  else if c.toNat = 0x41 then KeyType.UP_ARROW
  else if c.toNat = 0x42 then KeyType.DOWN_ARROW
  else KeyType.REGULAR

/-! ## Line editor (lines 186-207, 250-330) -/

/-- The bell `"\a"`. -/
def bell : List Char := [Char.ofNat 7]

/-- The erase sequence `"\b \b"`: cursor back, space, cursor back. -/
def eraseSeq : List Char := [Char.ofNat 8, ' ', Char.ofNat 8]

/-- The escape byte `0x1B`. -/
def ESC : Char := Char.ofNat 0x1B

/-- Function `handlebackAndDelKey(chars)`: `chars.pop_back()`. On an empty vector
`pop_back` has undefined behaviour, rendered as `none`. -/
def handlebackAndDelKey (chars : List Char) : Option (List Char) :=
  if chars.isEmpty then none else some chars.dropLast

/-- Function `handleUpAndDownArrow(chars, index)`: returns the new `chars` and the
bytes written to the terminal. Out of range it returns at once. Otherwise one
`"\b \b"` is written per character of `chars`, `chars` is cleared, and each
character of `cmdHistory[index]` is written and pushed. -/
def handleUpAndDownArrow (cmdHistory : List Str) (chars : List Char) (index : Int) :
    List Char × List Char :=
  if cmdHistory.length = 0 ∨ index < 0 ∨ index ≥ (cmdHistory.length : Int) then (chars, [])
  else
    let histCmd := cmdHistory.getD index.toNat []
    let erased := chars.foldl (fun out _ => out ++ eraseSeq) []
    histCmd.foldl (fun (r : List Char × List Char) c => (r.1 ++ [c], r.2 ++ [c])) ([], erased)

/-- The variables of the read loop of `ashReadLine`, with the bytes written
to the terminal so far. -/
structure EditState where
  chars : List Char
  index : Int
  out : List Char
deriving DecidableEq

/-- The `switch (getKeyType(c))` of lines 282-315. `none` only where the code
would run into undefined behaviour (`pop_back` on an empty vector). -/
def keyStep (cmdHistory : List Str) (c : Char) (st : EditState) : Option EditState :=
  match getKeyType c with
  | KeyType.DEL | KeyType.BACKSPACE =>
    if st.chars.length > 0 then
      (handlebackAndDelKey st.chars).map fun chars =>
        { st with chars := chars, out := st.out ++ eraseSeq }
    else some { st with out := st.out ++ bell }
  | KeyType.UP_ARROW =>
    if st.index - 1 ≥ 0 then
      let index := st.index - 1
      let r := handleUpAndDownArrow cmdHistory st.chars index
      some { chars := r.1, index := index, out := st.out ++ r.2 }
    else some { st with out := st.out ++ bell }
  | KeyType.DOWN_ARROW =>
    if st.index + 1 < (cmdHistory.length : Int) then
      let index := st.index + 1
      let r := handleUpAndDownArrow cmdHistory st.chars index
      some { chars := r.1, index := index, out := st.out ++ r.2 }
    else some { st with out := st.out ++ bell }
  | KeyType.REGULAR =>
    some { st with chars := st.chars ++ [c], out := st.out ++ [c] }

/-- The loop `while (true)` of lines 270-316 over the bytes that `read`
delivers from the terminal. It returns the state at the `break` and the bytes
not yet read; `none` when the input ends before a newline ends the loop (the
loop never breaks) or on undefined behaviour. After `0x1B` two more bytes are
read and the second of them is classified. -/
def readLoop (cmdHistory : List Str) : List Char → EditState → Option (EditState × List Char)
  | [], _ => none
  | c :: input, st =>
    if c = '\n' then some ({ st with index := cmdHistory.length }, input)
    else if c = ESC then
      match input with
      | _ :: c2 :: input2 =>
        match keyStep cmdHistory c2 st with
        | some st1 => readLoop cmdHistory input2 st1
        | none => none
      | _ => none
    else
      match keyStep cmdHistory c st with
      | some st1 => readLoop cmdHistory input st1
      | none => none

/-- The terminal attributes `ashReadLine` touches: the `ICANON` and `ECHO`
bits of `c_lflag`, `c_cc[VMIN]` and `c_cc[VTIME]`. -/
structure Termios where
  icanon : Bool
  echo : Bool
  vmin : Nat
  vtime : Nat
deriving DecidableEq

/-- What a call of `ashReadLine` leaves behind. -/
structure ReadLineResult where
  /-- The returned string. -/
  cmdline : Str
  /-- The bytes of the input not read. -/
  rest : List Char
  /-- The bytes written to the terminal. -/
  out : List Char
  /-- The bytes written to `stderr`. -/
  err : List Char
  /-- Every attribute set applied with `tcsetattr`, oldest first. -/
  applied : List Termios
deriving DecidableEq

/-- Function `ashReadLine()`. Here `tty` is the attribute set `tcgetattr` delivers, `none`
when `tcgetattr` fails (the function then reports `error 1` and returns the
empty string without reading). Both `tcsetattr` calls are taken to succeed.
`none` when the read loop does not end. -/
def ashReadLine (tty : Option Termios) (cmdHistory : List Str) (input : List Char) :
    Option ReadLineResult :=
  match tty with
  | none => some ⟨[], input, [], "error 1\n".toList, []⟩
  | some setting =>
    let setting := { setting with icanon := false }
    let setting := { setting with echo := false }
    let setting := { setting with vmin := 1 }
    let setting := { setting with vtime := 0 }
    let raw := setting
    match readLoop cmdHistory input ⟨[], cmdHistory.length, []⟩ with
    | none => none
    | some (st, rest) =>
      let setting := { setting with icanon := true }
      let setting := { setting with echo := true }
      let cmdline := st.chars.foldl (fun (s : Str) c => s ++ [c]) []
      some ⟨cmdline, rest, st.out, [], [raw, setting]⟩

/-! ## The states of the read loop, and the calls it makes -/

/-- The states in which the loop of lines 270-316 stands, in order: the state
at the top of every iteration (before the `read`), and the state after the
`break`. The control flow is that of `readLoop`. -/
def readLoopStates (cmdHistory : List Str) : List Char → EditState → List EditState
  | [], st => [st]
  | c :: input, st =>
    st ::
      (if c = '\n' then [{ st with index := cmdHistory.length }]
      else if c = ESC then
        match input with
        | _ :: c2 :: input2 =>
          match keyStep cmdHistory c2 st with
          | some st1 => readLoopStates cmdHistory input2 st1
          | none => []
        | _ => []
      else
        match keyStep cmdHistory c st with
        | some st1 => readLoopStates cmdHistory input st1
        | none => [])

/-- The states of the read loop in a call of `ashReadLine` on a terminal
(`tcgetattr` succeeded): lines 267-268 start the loop with an empty `chars`
and `index = cmdHistory.size()`. -/
def ashReadLineStates (cmdHistory : List Str) (input : List Char) : List EditState :=
  readLoopStates cmdHistory input ⟨[], cmdHistory.length, []⟩

/-- The argument `index` of the call `handleUpAndDownArrow(chars, index)` that
the `switch` of lines 282-315 makes for the byte `c` in the state `st`;
`none` when it makes no such call. -/
def arrowCall (cmdHistory : List Str) (c : Char) (st : EditState) : Option Int :=
  match getKeyType c with
  | KeyType.UP_ARROW => if st.index - 1 ≥ 0 then some (st.index - 1) else none
  | KeyType.DOWN_ARROW =>
    if st.index + 1 < (cmdHistory.length : Int) then some (st.index + 1) else none
  | _ => none

/-! ## The loop of `ashMainLoop` (lines 359-425) -/

/-- State when the loop of `ashMainLoop` stops. -/
structure LoopResult where
  cmdHistory : List Str
  events : List Event
  /-- The lines that were never read. -/
  unread : List Str
  /-- The outcome of the last iteration run; `Outcome.next` when the loop
  waits for a line that does not come. -/
  outcome : Outcome
deriving DecidableEq

/-- The loop `do ... while (true)` of `ashMainLoop`, driven by the lines that
the successive calls of `ashReadLine` return. The prompt, written before each
call of `ashReadLine`, is left out. The loop goes on as long as the body ends
with `Outcome.next`. -/
def ashMainLoop (canOpen : Str → Bool) (cmdHistory : List Str) : List Str → LoopResult
  | [] => ⟨cmdHistory, [], [], Outcome.next⟩
  | cmdline :: lines =>
    let r := ashMainLoopBody canOpen cmdHistory cmdline
    match r.outcome with
    | Outcome.next =>
      let r2 := ashMainLoop canOpen r.cmdHistory lines
      ⟨r2.cmdHistory, r.events ++ r2.events, r2.unread, r2.outcome⟩
    | Outcome.exit => ⟨r.cmdHistory, r.events, lines, Outcome.exit⟩
    | Outcome.undefined => ⟨r.cmdHistory, r.events, lines, Outcome.undefined⟩

/-! ## Prompt (lines 155-168) -/

/-- The constant `std::string::npos`, the largest `size_t` (64 bits). -/
def npos : Nat := 2 ^ 64 - 1

/-- Library call `s.find_last_of(c)`: the index of the last occurrence of `c`
in `s`, or `npos` when there is none. -/
def find_last_of (s : Str) (c : Char) : Nat :=
  if c ∈ s then s.length - 1 - s.reverse.indexOf c else npos

/-- Library call `s.substr(pos, n)`: the characters from index `pos` on, at
most `n` of them; with `pos > s.size()` it throws `std::out_of_range`,
rendered as `none`. -/
def substr (s : Str) (pos n : Nat) : Option Str :=
  if pos > s.length then none else some ((s.drop pos).take n)

/-- Function `printPrompt(pwd)`: the bytes written to `stdout`; `none` when
`substr` throws. The result of `find_last_of` is stored in an `unsigned`
(32 bits). -/
def printPrompt (pwd : Str) : Option Str :=
  if pwd.length > 16 then
    let lastpos := find_last_of pwd '/' % 2 ^ 32
    let elided := "/...".toList
    match substr pwd lastpos pwd.length with
    | none => none
    | some sub => some ((elided ++ sub) ++ ">".toList)
  else some (pwd ++ ">".toList)

/-! ## Reference definitions used to state the properties -/

/-- Single-pass form of `split`: `item` is what the running `getline` call has
extracted so far. At the end of the input a non-empty `item` is the last
token; an empty one means that this `getline` call extracted nothing and
failed. -/
def tokensRun (delim : Char) : List Char → Str → List Str
  | [], item => if item.isEmpty then [] else [item]
  | c :: cs, item =>
    if c = delim then item :: tokensRun delim cs [] else tokensRun delim cs (item ++ [c])

/-- Drop one final empty field, if there is one. -/
def dropFinalEmpty (fields : List Str) : List Str :=
  if fields.getLast? = some [] then fields.dropLast else fields

/-- The tokens of a line as the specification describes them: the line is cut
at every occurrence of the delimiter (`List.splitOn`), and one final empty
field is dropped. -/
def cutFields (s : Str) (delim : Char) : List Str :=
  dropFinalEmpty (s.splitOn delim)

/-- Editing from the end only: the bytes are processed left to right on an
initially empty buffer; Backspace and Delete remove the last character (if
any), every other byte is appended. -/
def editLine (bytes : List Char) : List Char :=
  bytes.foldl
    (fun buf b =>
      if getKeyType b = KeyType.BACKSPACE ∨ getKeyType b = KeyType.DEL then buf.dropLast
      else buf ++ [b])
    []

/-! # Properties -/

theorem addCmdToHistory_length_le (h : List Str) (cmd : Str) (hl : h.length ≤ 10) :
    (addCmdToHistory h cmd).length ≤ 10 := by
  unfold addCmdToHistory maxCmdHistory
  by_cases hc : h.length ≥ 10
  · simp only [hc, if_true, List.length_append, List.length_tail, List.length_singleton]; omega
  · simp only [hc, if_false, List.length_append, List.length_singleton]; omega

theorem recordAll_eq_drop (lines : List Str) :
    ∀ h : List Str, h.length ≤ 10 →
      recordAll h lines = (h ++ lines).drop ((h ++ lines).length - 10) := by
  induction lines with
  | nil =>
    intro h hl
    have : h.length - 10 = 0 := by omega
    simp [recordAll, this]
  | cons l ls ih =>
    intro h hl
    have step : recordAll h (l :: ls) = recordAll (addCmdToHistory h l) ls := rfl
    rw [step, ih _ (addCmdToHistory_length_le h l hl)]
    unfold addCmdToHistory maxCmdHistory
    by_cases hc : h.length ≥ 10
    · cases h with
      | nil => simp at hc
      | cons x t =>
        simp only [List.length_cons] at hc hl
        have ht : t.length = 9 := by omega
        have hc2 : (x :: t).length ≥ 10 := by simp only [List.length_cons]; omega
        rw [if_pos hc2]
        simp only [List.tail_cons, List.append_assoc, List.singleton_append, List.length_append,
          List.length_cons, List.cons_append, List.nil_append, List.length_nil, Nat.zero_add, ht]
        have e1 : 9 + (ls.length + 1) - 10 = ls.length := by omega
        have e2 : 9 + (ls.length + 1) + 1 - 10 = ls.length + 1 := by omega
        rw [e1, e2, List.drop_succ_cons]
    · simp only [hc, if_false, List.append_assoc, List.singleton_append]

/-- C1. History capacity: recording the lines of any list one after another
with `addCmdToHistory`, starting from the empty history, leaves exactly the
last `min N 10` of them in insertion order (for `N > 10` the most recent 10);
the store then has `min N 10` entries, and after every prefix of the
insertions it has at most 10. -/
theorem history_capacity (lines : List Str) :
    recordAll [] lines = lines.drop (lines.length - min lines.length 10)
    ∧ (recordAll [] lines).length = min lines.length 10
    ∧ (∀ k : Nat, (recordAll [] (lines.take k)).length ≤ 10) := by
  have key : ∀ ls : List Str, recordAll [] ls = ls.drop (ls.length - 10) := by
    intro ls
    have := recordAll_eq_drop ls [] (by simp)
    simpa using this
  refine ⟨?_, ?_, ?_⟩
  · rw [key]
    congr 1
    omega
  · rw [key, List.length_drop]; omega
  · intro k
    rw [key, List.length_drop]; omega

theorem tokensRun_getlineScan (delim : Char) (buf : List Char) :
    ∀ acc : Str, tokensRun delim buf acc =
      match getlineScan delim acc buf with
      | (it, some rest) => it :: tokensRun delim rest []
      | (it, none) => if it.isEmpty then [] else [it] := by
  induction buf with
  | nil => intro acc; simp [tokensRun, getlineScan]
  | cons c cs ih =>
    intro acc
    by_cases hc : c = delim
    · simp [tokensRun, getlineScan, hc]
    · simp only [tokensRun, getlineScan, hc, if_false]
      exact ih _

theorem getlineScan_length_lt (delim : Char) (buf : List Char) :
    ∀ (acc it : Str) (rest : List Char),
      getlineScan delim acc buf = (it, some rest) → rest.length < buf.length := by
  induction buf with
  | nil => intro acc it rest h; simp [getlineScan] at h
  | cons c cs ih =>
    intro acc it rest h
    simp only [getlineScan] at h
    split at h
    · simp only [Prod.mk.injEq, Option.some.injEq] at h
      rw [← h.2]; simp
    · have := ih _ _ _ h
      simp only [List.length_cons]; omega

theorem splitLoop_step (delim : Char) (ss : IStream) (item : Str) (elems : List Str) :
    splitLoop delim ss item elems =
      match getline ss item delim with
      | (ss1, item1, true) => splitLoop delim ss1 item1 (elems ++ [item1])
      | (_, _, false) => elems := by
  rw [splitLoop]
  split <;> rename_i h <;> rw [h]

theorem splitLoop_not_good (delim : Char) (buf : List Char) (item : Str) (elems : List Str) :
    splitLoop delim ⟨buf, false⟩ item elems = elems := by
  rw [splitLoop_step]
  simp [getline]

theorem splitLoop_eq_tokensRun (delim : Char) :
    ∀ (n : Nat) (buf : List Char), buf.length ≤ n → ∀ (item : Str) (elems : List Str),
      splitLoop delim ⟨buf, true⟩ item elems = elems ++ tokensRun delim buf [] := by
  intro n
  induction n with
  | zero =>
    intro buf hb item elems
    have : buf = [] := List.length_eq_zero.mp (Nat.le_zero.mp hb)
    subst this
    rw [splitLoop_step]
    simp [getline, getlineScan, tokensRun]
  | succ n ih =>
    intro buf hb item elems
    rw [splitLoop_step, tokensRun_getlineScan]
    simp only [getline, if_true]
    cases hs : getlineScan delim [] buf with
    | mk it r =>
      cases r with
      | none =>
        by_cases he : it = []
        · simp [he]
        · have hi : (!List.isEmpty it) = true := by
            cases it with
            | nil => exact absurd rfl he
            | cons a b => rfl
          simp only [hi, he, List.isEmpty_eq_true, if_false]
          exact splitLoop_not_good delim [] it (elems ++ [it])
      | some rest =>
        have hlt := getlineScan_length_lt delim buf [] it rest hs
        simp only []
        rw [ih rest (by omega)]
        simp

/-- The tokenizer computes the single-pass form. -/
theorem ashParseCmdLine_eq_tokensRun (s : Str) (delim : Char) :
    ashParseCmdLine s delim = tokensRun delim s [] := by
  unfold ashParseCmdLine split
  rw [splitLoop_eq_tokensRun delim s.length s (Nat.le_refl _)]
  simp

theorem dropFinalEmpty_cons (x : Str) (l : List Str) (hl : l ≠ []) :
    dropFinalEmpty (x :: l) = x :: dropFinalEmpty l := by
  cases l with
  | nil => exact absurd rfl hl
  | cons y t =>
    unfold dropFinalEmpty
    rw [List.getLast?_cons_cons]
    by_cases h : (y :: t).getLast? = some []
    · simp [h]
    · simp [h]

theorem tokensRun_eq_splitOn (delim : Char) (cs : List Char) :
    ∀ acc : Str, tokensRun delim cs acc =
      dropFinalEmpty (List.modifyHead (fun f => acc ++ f) (cs.splitOn delim)) := by
  induction cs with
  | nil =>
    intro acc
    by_cases h : acc = []
    · simp [tokensRun, dropFinalEmpty, List.splitOn, List.splitOnP_nil, List.modifyHead, h]
    · simp [tokensRun, dropFinalEmpty, List.splitOn, List.splitOnP_nil, List.modifyHead, h]
  | cons c cs ih =>
    intro acc
    have hne : List.splitOnP (fun x => x == delim) cs ≠ [] := List.splitOnP_ne_nil _ _
    by_cases hc : c = delim
    · simp only [tokensRun, hc, if_true, List.splitOn, List.splitOnP_cons, beq_self_eq_true,
        List.modifyHead, List.append_nil]
      rw [dropFinalEmpty_cons _ _ hne, ih]
      congr 2
      cases h : List.splitOnP (fun x => x == delim) cs <;> simp [List.modifyHead, List.splitOn, h]
    · have hb : (c == delim) = false := by simpa using hc
      simp only [tokensRun, hc, if_false, List.splitOn, List.splitOnP_cons, hb]
      rw [ih]
      congr 1
      cases h : List.splitOnP (fun x => x == delim) cs <;> simp [List.modifyHead, List.splitOn, h]

theorem ashParseCmdLine_eq_cutFields (s : Str) (delim : Char) :
    ashParseCmdLine s delim = cutFields s delim := by
  rw [ashParseCmdLine_eq_tokensRun, tokensRun_eq_splitOn, cutFields]
  congr 1
  cases h : s.splitOn delim <;> simp [List.modifyHead]

theorem tokensRun_no_delim (delim : Char) (cs : List Char) :
    ∀ acc : Str, delim ∉ acc → ∀ t ∈ tokensRun delim cs acc, delim ∉ t := by
  induction cs with
  | nil =>
    intro acc hacc t ht
    by_cases h : acc = []
    · simp [tokensRun, h] at ht
    · simp [tokensRun, h] at ht
      rw [ht]; exact hacc
  | cons c cs ih =>
    intro acc hacc t ht
    by_cases hc : c = delim
    · simp only [tokensRun, hc, if_true, List.mem_cons] at ht
      rcases ht with ht | ht
      · rw [ht]; exact hacc
      · exact ih [] (by simp) t ht
    · simp only [tokensRun, hc, if_false] at ht
      refine ih (acc ++ [c]) ?_ t ht
      simp only [List.mem_append, List.mem_singleton, not_or]
      exact ⟨hacc, fun h => hc h.symm⟩

/-- C4. Tokenizer reference behaviour: `ashParseCmdLine(s, ' ')` is the list
of fields obtained by cutting `s` at every space, with one final empty field
dropped; no token contains a space; the empty line has no token; leading and
adjacent spaces give empty tokens; `"ls -l"` gives `["ls", "-l"]`. -/
theorem tokenizer_reference (s : Str) :
    ashParseCmdLine s ' ' = cutFields s ' '
    ∧ (∀ t ∈ ashParseCmdLine s ' ', ' ' ∉ t)
    ∧ ashParseCmdLine [] ' ' = []
    ∧ ashParseCmdLine " a  b".toList ' ' = [[], "a".toList, [], "b".toList]
    ∧ ashParseCmdLine "ls -l".toList ' ' = ["ls".toList, "-l".toList] := by
  refine ⟨ashParseCmdLine_eq_cutFields s ' ', ?_, ?_, ?_, ?_⟩
  · rw [ashParseCmdLine_eq_tokensRun]
    exact tokensRun_no_delim ' ' s [] (by simp)
  · rw [ashParseCmdLine_eq_tokensRun]; decide
  · rw [ashParseCmdLine_eq_tokensRun]; decide
  · rw [ashParseCmdLine_eq_tokensRun]; decide

theorem scanRedirect_none (rest : List Str) :
    ∀ pre : List Str, ">".toList ∉ rest → scanRedirect pre rest = (pre ++ rest, false, []) := by
  induction rest with
  | nil => intro pre _; simp [scanRedirect]
  | cons t rest ih =>
    intro pre h
    simp only [List.mem_cons, not_or] at h
    have ht : ¬ t = ">".toList := fun e => h.1 e.symm
    simp only [scanRedirect, ht, if_false]
    rw [ih _ h.2]
    simp

theorem scanRedirect_first (mid post : List Str) :
    ∀ pre : List Str, ">".toList ∉ mid →
      scanRedirect pre (mid ++ ">".toList :: post) = (pre ++ mid, true, post.headD []) := by
  induction mid with
  | nil =>
    intro pre _
    cases post <;> simp [scanRedirect]
  | cons t mid ih =>
    intro pre h
    simp only [List.mem_cons, not_or] at h
    have ht : ¬ t = ">".toList := fun e => h.1 e.symm
    have e : (t :: mid) ++ ">".toList :: post = t :: (mid ++ ">".toList :: post) := rfl
    rw [e]
    simp only [scanRedirect, ht, if_false]
    rw [ih _ h.2]
    simp

/-- C2. Redirection extraction: without a `>` token the token list is the
argument list and no redirection is flagged; otherwise, with `pre` the tokens
before the first `>` and `post` those after it, redirection is flagged, the
argument list is `pre`, and the target is the first token of `post` (empty
when `post` is empty). `"echo hi > out.txt"` gives the arguments
`["echo", "hi"]` and the target `"out.txt"`. -/
theorem redirect_extraction (tokens : List Str) :
    (">".toList ∉ tokens → extractRedirect tokens = (tokens, false, []))
    ∧ (∀ pre post : List Str, ">".toList ∉ pre → tokens = pre ++ ">".toList :: post →
        extractRedirect tokens = (pre, true, post.headD []))
    ∧ extractRedirect (ashParseCmdLine "echo hi > out.txt".toList ' ')
        = (["echo".toList, "hi".toList], true, "out.txt".toList) := by
  refine ⟨?_, ?_, ?_⟩
  · intro h
    unfold extractRedirect
    rw [scanRedirect_none tokens [] h]; simp
  · intro pre post hpre ht
    unfold extractRedirect
    rw [ht, scanRedirect_first pre post [] hpre]; simp
  · rw [ashParseCmdLine_eq_tokensRun]; decide

/-- Witness of C2 on the tokens `["ls", ">", "f", "g"]`. -/
theorem redirect_extraction_witness :
    extractRedirect ["ls".toList, ">".toList, "f".toList, "g".toList]
      = (["ls".toList], true, "f".toList) :=
  (redirect_extraction ["ls".toList, ">".toList, "f".toList, "g".toList]).2.1
    ["ls".toList] ["f".toList, "g".toList] (by decide) rfl

theorem ashMainLoopBody_syntax_error (canOpen : Str → Bool) (cmdHistory : List Str) (cmdline : Str) (args : List Str)
    (hne : cmdline ≠ [])
    (h : extractRedirect (ashParseCmdLine cmdline ' ') = (args, true, [])) :
    ashMainLoopBody canOpen cmdHistory cmdline =
      ⟨addCmdToHistory cmdHistory cmdline,
        [Event.owrite ['\n'], Event.ewrite syntaxErrorMsg], Outcome.next⟩ := by
  unfold ashMainLoopBody
  have : cmdline.isEmpty = false := by
    cases cmdline with
    | nil => exact absurd rfl hne
    | cons a b => rfl
  simp [this, h]

/-- C3. Redirection without a filename: when the first `>` token of the line
is its last token, the iteration flags redirection with an empty target,
writes the syntax error, and goes on to the next prompt; apart from recording
the line its only effects are the newline echo and that error message (no
file is opened, no handler called, no process spawned). -/
theorem redirect_without_filename (canOpen : Str → Bool) (cmdHistory : List Str) (cmdline : Str) (pre : List Str)
    (hpre : ">".toList ∉ pre)
    (htok : ashParseCmdLine cmdline ' ' = pre ++ [">".toList]) :
    extractRedirect (ashParseCmdLine cmdline ' ') = (pre, true, [])
    ∧ ashMainLoopBody canOpen cmdHistory cmdline =
        ⟨addCmdToHistory cmdHistory cmdline,
          [Event.owrite ['\n'], Event.ewrite syntaxErrorMsg], Outcome.next⟩ := by
  have hx : extractRedirect (ashParseCmdLine cmdline ' ') = (pre, true, []) := by
    unfold extractRedirect
    rw [htok, scanRedirect_first pre [] [] hpre]
    simp
  have hne : cmdline ≠ [] := by
    intro he
    rw [he, ashParseCmdLine_eq_tokensRun] at htok
    simp [tokensRun] at htok
  exact ⟨hx, ashMainLoopBody_syntax_error canOpen cmdHistory cmdline pre hne hx⟩

/-- Witness of C3 on the line `"ls >"`. -/
theorem redirect_without_filename_witness :
    ">".toList ∉ ["ls".toList]
    ∧ ashParseCmdLine "ls >".toList ' ' = ["ls".toList] ++ [">".toList]
    ∧ extractRedirect (ashParseCmdLine "ls >".toList ' ') = (["ls".toList], true, [])
    ∧ ashMainLoopBody (fun _ => true) [] "ls >".toList =
        ⟨addCmdToHistory [] "ls >".toList,
          [Event.owrite ['\n'], Event.ewrite syntaxErrorMsg], Outcome.next⟩ :=
  have htok : ashParseCmdLine "ls >".toList ' ' = ["ls".toList] ++ [">".toList] := by
    rw [ashParseCmdLine_eq_tokensRun]; decide
  ⟨by decide, htok, redirect_without_filename (fun _ => true) [] "ls >".toList ["ls".toList] (by decide) htok⟩

/-- C10, counterexample. The line made of one space is not treated as zero
tokens (it is one empty token), and the iteration does not skip execution: it
requests the external execution of the command with the empty name. -/
theorem blank_line_not_skipped :
    ashParseCmdLine " ".toList ' ' = [[]]
    ∧ ashMainLoopBody (fun _ => true) [] " ".toList =
        ⟨[" ".toList], [Event.owrite ['\n'], Event.executeCmd [] [[]] []], Outcome.next⟩ := by
  have h : ashParseCmdLine " ".toList ' ' = [[]] := by
    rw [ashParseCmdLine_eq_tokensRun]; decide
  refine ⟨h, ?_⟩
  unfold ashMainLoopBody
  rw [h]
  decide

/-- C10, amended. The empty line (the code does no trimming) is treated as
zero tokens, and the iteration skips execution: the history is unchanged, the
only effect is the newline echo, and the loop goes on to the next prompt. -/
theorem empty_line_skipped (canOpen : Str → Bool) (cmdHistory : List Str) :
    ashParseCmdLine [] ' ' = []
    ∧ ashMainLoopBody canOpen cmdHistory [] = ⟨cmdHistory, [Event.owrite ['\n']], Outcome.next⟩ := by
  refine ⟨?_, ?_⟩
  · rw [ashParseCmdLine_eq_tokensRun]; decide
  · unfold ashMainLoopBody
    simp

/-- C5, the code at the failing input. The bytes `0x41` and `0x42` are
classified as arrow keys whether or not an escape byte came before: with the
history `["ls"]`, the input `A`, newline (no `0x1B` anywhere) recalls the
history entry, and `ashReadLine` returns `"ls"` rather than `"A"`. -/
theorem plain_byte_triggers_recall :
    getKeyType (Char.ofNat 0x41) = KeyType.UP_ARROW
    ∧ getKeyType (Char.ofNat 0x42) = KeyType.DOWN_ARROW
    ∧ keyStep ["ls".toList] 'A' ⟨[], 1, []⟩ = some ⟨"ls".toList, 0, "ls".toList⟩
    ∧ (ashReadLine (some ⟨true, true, 1, 0⟩) ["ls".toList] "A\n".toList).map
        (fun r => r.cmdline) = some "ls".toList := by
  decide

theorem eraseLoop_eq (chars : List Char) :
    ∀ acc : List Char,
      chars.foldl (fun out _ => out ++ eraseSeq) acc = acc ++ chars.flatMap (fun _ => eraseSeq) := by
  induction chars with
  | nil => intro acc; simp
  | cons c cs ih => intro acc; simp [List.foldl_cons, ih, List.flatMap_cons]

theorem echoLoop_eq (histCmd : List Char) :
    ∀ r : List Char × List Char,
      histCmd.foldl (fun (r : List Char × List Char) c => (r.1 ++ [c], r.2 ++ [c])) r
        = (r.1 ++ histCmd, r.2 ++ histCmd) := by
  induction histCmd with
  | nil => intro r; simp
  | cons c cs ih => intro r; simp [List.foldl_cons, ih]

/-- In range, `handleUpAndDownArrow` replaces the buffer by the history entry. -/
theorem handleUpAndDownArrow_in_range (cmdHistory : List Str) (chars : List Char) (i : Nat)
    (e : Str) (he : cmdHistory[i]? = some e) :
    handleUpAndDownArrow cmdHistory chars (i : Int)
      = (e, chars.flatMap (fun _ => eraseSeq) ++ e) := by
  have hi : i < cmdHistory.length := by
    rcases List.getElem?_eq_some_iff.mp he with ⟨h, _⟩
    exact h
  unfold handleUpAndDownArrow
  have h1 : ¬ (cmdHistory.length = 0 ∨ (i : Int) < 0 ∨ (i : Int) ≥ (cmdHistory.length : Int)) := by
    omega
  rw [if_neg h1]
  have h2 : cmdHistory.getD (i : Int).toNat [] = e := by
    simp [List.getD_eq_getElem?_getD, he]
  simp only [h2, echoLoop_eq, eraseLoop_eq, List.nil_append]

/-- C6. Recall boundary: a DownArrow event with the cursor at the history
length, and an UpArrow event with the cursor at 0 (the history may be empty),
write the bell and nothing else; cursor and edit buffer are unchanged. -/
theorem recall_boundary (cmdHistory : List Str) (chars out : List Char) (cu cd : Char)
    (hu : getKeyType cu = KeyType.UP_ARROW) (hd : getKeyType cd = KeyType.DOWN_ARROW) :
    keyStep cmdHistory cd ⟨chars, cmdHistory.length, out⟩
        = some ⟨chars, cmdHistory.length, out ++ [Char.ofNat 7]⟩
    ∧ keyStep cmdHistory cu ⟨chars, 0, out⟩ = some ⟨chars, 0, out ++ [Char.ofNat 7]⟩ := by
  constructor
  · simp [keyStep, hd, bell]
  · simp [keyStep, hu, bell]

/-- Witness of C6 with the history `["ls"]`, the buffer `"ab"` and the bytes
`A` (up) and `B` (down). -/
theorem recall_boundary_witness :
    keyStep ["ls".toList] 'B' ⟨"ab".toList, 1, []⟩ = some ⟨"ab".toList, 1, [Char.ofNat 7]⟩
    ∧ keyStep ["ls".toList] 'A' ⟨"ab".toList, 0, []⟩ = some ⟨"ab".toList, 0, [Char.ofNat 7]⟩ :=
  recall_boundary ["ls".toList] "ab".toList [] 'A' 'B' (by decide) (by decide)

/-- C7. Successful recall: with the cursor `k` in its range `[0, length]`, an
UpArrow event with `k - 1 ≥ 0` moves the cursor to `k - 1`, a DownArrow event
with `k + 1 < length` moves it to `k + 1`; the history has an entry at the new
cursor, the edit buffer becomes that entry, and the terminal receives one
erase sequence per character formerly in the buffer, then the characters of
the entry. -/
theorem recall_success (cmdHistory : List Str) (chars out : List Char) (k : Int) (cu cd : Char)
    (hu : getKeyType cu = KeyType.UP_ARROW) (hd : getKeyType cd = KeyType.DOWN_ARROW)
    (h0 : 0 ≤ k) (hk : k ≤ (cmdHistory.length : Int)) :
    (k - 1 ≥ 0 → ∃ e : Str, cmdHistory[(k - 1).toNat]? = some e
        ∧ keyStep cmdHistory cu ⟨chars, k, out⟩
            = some ⟨e, k - 1,
                out ++ (chars.flatMap (fun _ => [Char.ofNat 8, ' ', Char.ofNat 8]) ++ e)⟩)
    ∧ (k + 1 < (cmdHistory.length : Int) → ∃ e : Str, cmdHistory[(k + 1).toNat]? = some e
        ∧ keyStep cmdHistory cd ⟨chars, k, out⟩
            = some ⟨e, k + 1,
                out ++ (chars.flatMap (fun _ => [Char.ofNat 8, ' ', Char.ofNat 8]) ++ e)⟩) := by
  constructor
  · intro h1
    have hlt : (k - 1).toNat < cmdHistory.length := by omega
    refine ⟨cmdHistory[(k - 1).toNat], List.getElem?_eq_getElem hlt, ?_⟩
    have hcast : ((k - 1).toNat : Int) = k - 1 := Int.toNat_of_nonneg h1
    have hr := handleUpAndDownArrow_in_range cmdHistory chars (k - 1).toNat _
      (List.getElem?_eq_getElem hlt)
    rw [hcast] at hr
    simp only [keyStep, hu, h1, if_true, hr]
    rfl
  · intro h1
    have hlt : (k + 1).toNat < cmdHistory.length := by omega
    refine ⟨cmdHistory[(k + 1).toNat], List.getElem?_eq_getElem hlt, ?_⟩
    have hcast : ((k + 1).toNat : Int) = k + 1 := Int.toNat_of_nonneg (by omega)
    have hr := handleUpAndDownArrow_in_range cmdHistory chars (k + 1).toNat _
      (List.getElem?_eq_getElem hlt)
    rw [hcast] at hr
    simp only [keyStep, hd, h1, if_true, hr]
    rfl

/-- Witness of C7 with the history `["ls", "pwd", "cd"]`, the cursor 1 and the
buffer `"x"`: up recalls `"ls"`, down recalls `"cd"`. -/
theorem recall_success_witness :
    keyStep ["ls".toList, "pwd".toList, "cd".toList] 'A' ⟨"x".toList, 1, []⟩
        = some ⟨"ls".toList, 0, [Char.ofNat 8, ' ', Char.ofNat 8, 'l', 's']⟩
    ∧ keyStep ["ls".toList, "pwd".toList, "cd".toList] 'B' ⟨"x".toList, 1, []⟩
        = some ⟨"cd".toList, 2, [Char.ofNat 8, ' ', Char.ofNat 8, 'c', 'd']⟩ := by
  have h := recall_success ["ls".toList, "pwd".toList, "cd".toList] "x".toList [] 1 'A' 'B'
    (by decide) (by decide) (by decide) (by decide)
  obtain ⟨e1, he1, hs1⟩ := h.1 (by decide)
  obtain ⟨e2, he2, hs2⟩ := h.2 (by decide)
  have e1v : e1 = "ls".toList := by
    have : (["ls".toList, "pwd".toList, "cd".toList] : List Str)[((1 : Int) - 1).toNat]?
        = some "ls".toList := by decide
    rw [this] at he1
    exact (Option.some.inj he1).symm
  have e2v : e2 = "cd".toList := by
    have : (["ls".toList, "pwd".toList, "cd".toList] : List Str)[((1 : Int) + 1).toNat]?
        = some "cd".toList := by decide
    rw [this] at he2
    exact (Option.some.inj he2).symm
  subst e1v e2v
  exact ⟨hs1, hs2⟩

/-- C8. Erase never underflows: on an empty buffer a Backspace or Delete
event leaves the buffer empty and writes only the bell; on a buffer
`pre ++ [x]` it leaves `pre` and writes exactly cursor-back, space,
cursor-back. The step never reaches the undefined `pop_back` on an empty
vector (`handlebackAndDelKey []`), whatever the state. -/
theorem erase_never_underflows (cmdHistory : List Str) (index : Int) (out : List Char) (c : Char)
    (h : getKeyType c = KeyType.BACKSPACE ∨ getKeyType c = KeyType.DEL) :
    keyStep cmdHistory c ⟨[], index, out⟩ = some ⟨[], index, out ++ [Char.ofNat 7]⟩
    ∧ (∀ (pre : List Char) (x : Char),
        keyStep cmdHistory c ⟨pre ++ [x], index, out⟩
          = some ⟨pre, index, out ++ [Char.ofNat 8, ' ', Char.ofNat 8]⟩)
    ∧ handlebackAndDelKey [] = none
    ∧ (∀ st : EditState, keyStep cmdHistory c st ≠ none) := by
  refine ⟨?_, ?_, rfl, ?_⟩
  · rcases h with h | h <;> simp [keyStep, h, bell]
  · intro pre x
    rcases h with h | h <;>
      simp [keyStep, h, handlebackAndDelKey, eraseSeq]
  · intro st
    rcases h with h | h <;>
    · simp only [keyStep, h]
      by_cases hl : st.chars.length > 0
      · have hne : st.chars.isEmpty = false := by
          cases hc : st.chars with
          | nil => rw [hc] at hl; simp at hl
          | cons a b => rfl
        simp [hl, handlebackAndDelKey, hne]
      · simp [hl]

/-- Witness of C8 with the Backspace byte `0x08` and the buffers `""` and `"ab"`. -/
theorem erase_never_underflows_witness :
    keyStep [] (Char.ofNat 8) ⟨[], 0, []⟩ = some ⟨[], 0, [Char.ofNat 7]⟩
    ∧ keyStep [] (Char.ofNat 8) ⟨['a', 'b'], 0, []⟩
        = some ⟨['a'], 0, [Char.ofNat 8, ' ', Char.ofNat 8]⟩ :=
  have h := erase_never_underflows [] 0 [] (Char.ofNat 8) (Or.inl (by decide))
  ⟨h.1, h.2.1 ['a'] 'b'⟩

/-- The step of `editLine`. -/
theorem keyStep_edit (cmdHistory : List Str) (b : Char) (st : EditState)
    (hb : getKeyType b = KeyType.REGULAR ∨ getKeyType b = KeyType.BACKSPACE
      ∨ getKeyType b = KeyType.DEL) :
    ∃ o : List Char, keyStep cmdHistory b st =
      some ⟨if getKeyType b = KeyType.BACKSPACE ∨ getKeyType b = KeyType.DEL
              then st.chars.dropLast else st.chars ++ [b], st.index, o⟩ := by
  rcases hb with h | h | h
  · exact ⟨st.out ++ [b], by simp [keyStep, h]⟩
  · cases hc : st.chars with
    | nil => exact ⟨st.out ++ bell, by simp [keyStep, h, hc]⟩
    | cons a l =>
      exact ⟨st.out ++ eraseSeq, by simp [keyStep, h, hc, handlebackAndDelKey]⟩
  · cases hc : st.chars with
    | nil => exact ⟨st.out ++ bell, by simp [keyStep, h, hc]⟩
    | cons a l =>
      exact ⟨st.out ++ eraseSeq, by simp [keyStep, h, hc, handlebackAndDelKey]⟩

theorem readLoop_newline (cmdHistory : List Str) (input : List Char) (st : EditState) :
    readLoop cmdHistory ('\n' :: input) st
      = some ({ st with index := cmdHistory.length }, input) := by
  rw [readLoop.eq_def]
  simp

theorem readLoop_plain (cmdHistory : List Str) (c : Char) (input : List Char) (st : EditState)
    (h1 : c ≠ '\n') (h2 : c ≠ ESC) :
    readLoop cmdHistory (c :: input) st =
      match keyStep cmdHistory c st with
      | some st1 => readLoop cmdHistory input st1
      | none => none := by
  rw [readLoop.eq_def]
  simp only [if_neg h1, if_neg h2]

theorem readLoop_edit (cmdHistory : List Str) (rest : List Char) (pre : List Char) :
    (∀ b ∈ pre, b ≠ '\n' ∧ b ≠ ESC ∧ (getKeyType b = KeyType.REGULAR
      ∨ getKeyType b = KeyType.BACKSPACE ∨ getKeyType b = KeyType.DEL)) →
    ∀ st : EditState, ∃ o : List Char,
      readLoop cmdHistory (pre ++ '\n' :: rest) st =
        some (⟨pre.foldl
            (fun buf b =>
              if getKeyType b = KeyType.BACKSPACE ∨ getKeyType b = KeyType.DEL then buf.dropLast
              else buf ++ [b]) st.chars, cmdHistory.length, o⟩, rest) := by
  induction pre with
  | nil =>
    intro _ st
    exact ⟨st.out, by simp [readLoop_newline]⟩
  | cons b pre ih =>
    intro hpre st
    have hb := hpre b (List.mem_cons_self b pre)
    obtain ⟨o1, h1⟩ := keyStep_edit cmdHistory b st hb.2.2
    have ih2 := ih (fun x hx => hpre x (List.mem_cons_of_mem b hx))
    obtain ⟨o, ho⟩ := ih2 ⟨if getKeyType b = KeyType.BACKSPACE ∨ getKeyType b = KeyType.DEL
              then st.chars.dropLast else st.chars ++ [b], st.index, o1⟩
    refine ⟨o, ?_⟩
    have e : (b :: pre) ++ '\n' :: rest = b :: (pre ++ '\n' :: rest) := rfl
    rw [e, readLoop_plain cmdHistory b _ st hb.1 hb.2.1, h1]
    simp only [List.foldl_cons]
    exact ho

theorem charsToString_eq (chars : List Char) :
    ∀ acc : Str, chars.foldl (fun (s : Str) c => s ++ [c]) acc = acc ++ chars := by
  induction chars with
  | nil => intro acc; simp
  | cons c cs ih => intro acc; simp [List.foldl_cons, ih]

/-- C9. Finished line: on a terminal (`tcgetattr` succeeds), when the bytes
before the first newline are all classified RegularChar, Backspace or Delete
and none is the escape byte, `ashReadLine` reads up to and including that
newline (the bytes after it are left unread) and returns the result of
editing from the end only: each Backspace or Delete removes the last
character if there is one, every other byte is appended. -/
theorem finished_line (tty : Termios) (cmdHistory : List Str) (pre rest : List Char)
    (hpre : ∀ b ∈ pre, b ≠ '\n' ∧ b ≠ Char.ofNat 0x1B ∧ (getKeyType b = KeyType.REGULAR
      ∨ getKeyType b = KeyType.BACKSPACE ∨ getKeyType b = KeyType.DEL)) :
    ∃ r : ReadLineResult,
      ashReadLine (some tty) cmdHistory (pre ++ '\n' :: rest) = some r
      ∧ r.cmdline = editLine pre ∧ r.rest = rest := by
  obtain ⟨o, ho⟩ := readLoop_edit cmdHistory rest pre hpre ⟨[], cmdHistory.length, []⟩
  simp only [ashReadLine, ho]
  refine ⟨_, rfl, ?_, rfl⟩
  simp only [charsToString_eq, List.nil_append]
  rfl

/-- Witness of C9 on the input `abc`, Delete, `d`, newline, `zz`: the line
`"abd"` is returned and `zz` is left unread. -/
theorem finished_line_witness :
    ∃ r : ReadLineResult,
      ashReadLine (some ⟨true, true, 1, 0⟩) ["ls".toList]
        (['a', 'b', 'c', Char.ofNat 0x7F, 'd'] ++ '\n' :: ['z', 'z']) = some r
      ∧ r.cmdline = ['a', 'b', 'd'] ∧ r.rest = ['z', 'z'] := by
  obtain ⟨r, h1, h2, h3⟩ := finished_line ⟨true, true, 1, 0⟩ ["ls".toList]
    ['a', 'b', 'c', Char.ofNat 0x7F, 'd'] ['z', 'z'] (by decide)
  refine ⟨r, h1, ?_, h3⟩
  rw [h2]
  decide

/-- The body of the loop once the argument list is known to be `args0 :: more`
and the redirection syntax check is passed. -/
theorem ashMainLoopBody_dispatch (canOpen : Str → Bool) (cmdHistory : List Str) (cmdline : Str) (args0 : Str)
    (more : List Str) (redirect : Bool) (rfile : Str)
    (hx : extractRedirect (ashParseCmdLine cmdline ' ') = (args0 :: more, redirect, rfile))
    (hsyn : ¬ (redirect = true ∧ rfile = [])) :
    ashMainLoopBody canOpen cmdHistory cmdline =
      match findCmd args0 with
      | none =>
        ⟨addCmdToHistory cmdHistory cmdline,
          [Event.owrite ['\n']] ++ (if redirect then [Event.fopen rfile] else [])
            ++ [Event.executeCmd args0 (args0 :: more) rfile], Outcome.next⟩
      | some cmdfxn =>
        if args0 = "exit".toList then
          ⟨addCmdToHistory cmdHistory cmdline,
            [Event.owrite ['\n']] ++ (if redirect then [Event.fopen rfile] else []),
            Outcome.exit⟩
        else
          match cmdfxn with
          | none =>
            ⟨addCmdToHistory cmdHistory cmdline,
              [Event.owrite ['\n']] ++ (if redirect then [Event.fopen rfile] else []),
              Outcome.undefined⟩
          | some f =>
            if redirect = true ∧ canOpen rfile = false then
              ⟨addCmdToHistory cmdHistory cmdline,
                [Event.owrite ['\n'], Event.fopen rfile, Event.callNull f (more.headD [])],
                Outcome.undefined⟩
            else
              ⟨addCmdToHistory cmdHistory cmdline,
                [Event.owrite ['\n']] ++ (if redirect then [Event.fopen rfile] else [])
                  ++ [Event.call f (more.headD []) (if redirect then some rfile else none)]
                  ++ (if redirect then [Event.fclose rfile] else []), Outcome.next⟩ := by
  have hne : cmdline.isEmpty = false := by
    cases cmdline with
    | nil =>
      rw [ashParseCmdLine_eq_tokensRun] at hx
      simp [tokensRun, extractRedirect, scanRedirect] at hx
    | cons a b => rfl
  have hs : (redirect && rfile.isEmpty) = false := by
    cases redirect with
    | false => rfl
    | true =>
      cases rfile with
      | nil => exact absurd ⟨rfl, rfl⟩ hsyn
      | cons a b => rfl
  unfold ashMainLoopBody
  simp only [hne, hx, hs]
  cases hf : findCmd args0 with
  | none => cases redirect <;> simp
  | some cmdfxn =>
    by_cases he : args0 = "exit".toList
    · cases redirect <;> simp [he]
    · cases cmdfxn with
      | none => cases redirect <;> simp [he]
      | some f =>
        cases hco : canOpen rfile <;> cases more <;> cases redirect <;> simp [he, hco]

/-- The registry holds exactly the five names of `main`. -/
theorem findCmd_cases (name : Str) :
    (name = "cd".toList ∧ findCmd name = some (some Builtin.ashCd))
    ∨ (name = "ls".toList ∧ findCmd name = some (some Builtin.ashLs))
    ∨ (name = "pwd".toList ∧ findCmd name = some (some Builtin.ashPwd))
    ∨ (name = "history".toList ∧ findCmd name = some (some Builtin.ashHistory))
    ∨ (name = "exit".toList ∧ findCmd name = some none)
    ∨ (name ∉ ["cd".toList, "ls".toList, "pwd".toList, "history".toList, "exit".toList]
        ∧ findCmd name = none) := by
  by_cases h1 : name = "cd".toList
  · left; exact ⟨h1, by rw [h1]; decide⟩
  by_cases h2 : name = "ls".toList
  · right; left; exact ⟨h2, by rw [h2]; decide⟩
  by_cases h3 : name = "pwd".toList
  · right; right; left; exact ⟨h3, by rw [h3]; decide⟩
  by_cases h4 : name = "history".toList
  · right; right; right; left; exact ⟨h4, by rw [h4]; decide⟩
  by_cases h5 : name = "exit".toList
  · right; right; right; right; left; exact ⟨h5, by rw [h5]; decide⟩
  right; right; right; right; right
  refine ⟨?_, ?_⟩
  · intro hm
    simp only [List.mem_cons, List.not_mem_nil, or_false] at hm
    rcases hm with h | h | h | h | h <;> contradiction
  have b1 : (name == "cd".toList) = false := by simpa using h1
  have b2 : (name == "ls".toList) = false := by simpa using h2
  have b3 : (name == "pwd".toList) = false := by simpa using h3
  have b4 : (name == "history".toList) = false := by simpa using h4
  have b5 : (name == "exit".toList) = false := by simpa using h5
  simp only [findCmd, supportedCmds, List.lookup, b1, b2, b3, b4, b5]

theorem scanRedirect_fst (rest : List Str) :
    ∀ pre : List Str, ∃ more : List Str, (scanRedirect pre rest).1 = pre ++ more := by
  induction rest with
  | nil => intro pre; exact ⟨[], by simp [scanRedirect]⟩
  | cons t rest ih =>
    intro pre
    by_cases ht : t = ">".toList
    · refine ⟨[], ?_⟩
      cases rest <;> simp only [scanRedirect, ht, if_true, List.append_nil]
    · obtain ⟨more, hm⟩ := ih (pre ++ [t])
      refine ⟨t :: more, ?_⟩
      simp only [scanRedirect, ht, if_false]
      rw [hm]
      simp

/-- After the extraction the first token of the line is still the first
argument, unless it is the redirection operator. -/
theorem extractRedirect_head (tok0 : Str) (toks args : List Str) (redirect : Bool) (rfile : Str)
    (h0 : tok0 ≠ ">".toList)
    (hx : extractRedirect (tok0 :: toks) = (args, redirect, rfile)) :
    ∃ more : List Str, args = tok0 :: more := by
  obtain ⟨more, hm⟩ := scanRedirect_fst toks ([] ++ [tok0])
  refine ⟨more, ?_⟩
  have h1 : extractRedirect (tok0 :: toks) = scanRedirect ([] ++ [tok0]) toks := by
    simp only [extractRedirect, scanRedirect, h0, if_false]
  rw [h1] at hx
  rw [hx] at hm
  simpa using hm

/-- C11, counterexample. The line `"> out.txt"` passes the redirection syntax
check (the target is `out.txt`) and its first token `>` is not a registered
name, yet no external execution is requested: no argument is left, and the
iteration stops at the read of `args[0]`. -/
theorem dispatch_without_command_name :
    ashParseCmdLine "> out.txt".toList ' ' = [">".toList, "out.txt".toList]
    ∧ findCmd ">".toList = none
    ∧ extractRedirect (ashParseCmdLine "> out.txt".toList ' ') = ([], true, "out.txt".toList)
    ∧ ashMainLoopBody (fun _ => true) [] "> out.txt".toList =
        ⟨["> out.txt".toList], [Event.owrite ['\n'], Event.fopen "out.txt".toList],
          Outcome.undefined⟩ := by
  have h : ashParseCmdLine "> out.txt".toList ' ' = [">".toList, "out.txt".toList] := by
    rw [ashParseCmdLine_eq_tokensRun]; decide
  refine ⟨h, by decide, by rw [h]; decide, ?_⟩
  unfold ashMainLoopBody
  rw [h]
  decide

/-- C11, amended. Dispatch by registry, for a line with first token `tok0`
that passes the redirection syntax check; `args` is the argument list left by
the extraction. When `tok0` is registered with a handler (`cd`, `ls`, `pwd`,
`history`), `args` starts with `tok0` and that handler is called exactly once,
with the second remaining token or the empty string as argument, and no
external execution is requested; the call is on `stdout` or on the opened
file, which is then closed, and when the target cannot be opened the handler
gets the null pointer and the behaviour is undefined from there. When `tok0`
is neither registered nor the redirection operator `>`, no handler is called
and exactly one external execution is requested, with `tok0` as command. -/
theorem dispatch_by_registry (canOpen : Str → Bool) (cmdHistory : List Str) (cmdline : Str)
    (tok0 : Str) (toks args : List Str) (redirect : Bool) (rfile : Str)
    (htok : ashParseCmdLine cmdline ' ' = tok0 :: toks)
    (hx : extractRedirect (ashParseCmdLine cmdline ' ') = (args, redirect, rfile))
    (hsyn : ¬ (redirect = true ∧ rfile = [])) :
    (tok0 ∈ ["cd".toList, "ls".toList, "pwd".toList, "history".toList] →
      ∃ (f : Builtin) (more : List Str), findCmd tok0 = some (some f) ∧ args = tok0 :: more
        ∧ ashMainLoopBody canOpen cmdHistory cmdline =
            if redirect = true ∧ canOpen rfile = false then
              ⟨addCmdToHistory cmdHistory cmdline,
                [Event.owrite ['\n'], Event.fopen rfile, Event.callNull f (more.headD [])],
                Outcome.undefined⟩
            else
              ⟨addCmdToHistory cmdHistory cmdline,
                [Event.owrite ['\n']] ++ (if redirect then [Event.fopen rfile] else [])
                  ++ [Event.call f (more.headD []) (if redirect then some rfile else none)]
                  ++ (if redirect then [Event.fclose rfile] else []), Outcome.next⟩)
    ∧ (tok0 ∉ ["cd".toList, "ls".toList, "pwd".toList, "history".toList, "exit".toList] →
        tok0 ≠ ">".toList →
        ∃ more : List Str, findCmd tok0 = none ∧ args = tok0 :: more
          ∧ ashMainLoopBody canOpen cmdHistory cmdline =
              ⟨addCmdToHistory cmdHistory cmdline,
                [Event.owrite ['\n']] ++ (if redirect then [Event.fopen rfile] else [])
                  ++ [Event.executeCmd tok0 args rfile], Outcome.next⟩)
    ∧ findCmd "cd".toList = some (some Builtin.ashCd)
    ∧ findCmd "ls".toList = some (some Builtin.ashLs)
    ∧ findCmd "pwd".toList = some (some Builtin.ashPwd)
    ∧ findCmd "history".toList = some (some Builtin.ashHistory) := by
  refine ⟨?_, ?_, by decide, by decide, by decide, by decide⟩
  · intro hmem
    have hne : tok0 ≠ "exit".toList := by
      intro he
      rw [he] at hmem
      revert hmem
      decide
    have h0 : tok0 ≠ ">".toList := by
      intro he
      rw [he] at hmem
      revert hmem
      decide
    obtain ⟨more, hargs⟩ := extractRedirect_head tok0 toks args redirect rfile h0
      (by rw [← htok]; exact hx)
    have hb := ashMainLoopBody_dispatch canOpen cmdHistory cmdline tok0 more redirect rfile
      (by rw [hx, hargs]) hsyn
    rcases findCmd_cases tok0 with h | h | h | h | h | h
    · exact ⟨_, more, h.2, hargs, by rw [hb, h.2]; dsimp only; rw [if_neg hne]⟩
    · exact ⟨_, more, h.2, hargs, by rw [hb, h.2]; dsimp only; rw [if_neg hne]⟩
    · exact ⟨_, more, h.2, hargs, by rw [hb, h.2]; dsimp only; rw [if_neg hne]⟩
    · exact ⟨_, more, h.2, hargs, by rw [hb, h.2]; dsimp only; rw [if_neg hne]⟩
    · exact absurd h.1 hne
    · exfalso
      apply h.1
      simp only [List.mem_cons, List.not_mem_nil, or_false] at hmem ⊢
      tauto
  · intro hnot h0
    obtain ⟨more, hargs⟩ := extractRedirect_head tok0 toks args redirect rfile h0
      (by rw [← htok]; exact hx)
    have hb := ashMainLoopBody_dispatch canOpen cmdHistory cmdline tok0 more redirect rfile
      (by rw [hx, hargs]) hsyn
    rcases findCmd_cases tok0 with h | h | h | h | h | h
    · exact absurd (by rw [h.1]; decide) hnot
    · exact absurd (by rw [h.1]; decide) hnot
    · exact absurd (by rw [h.1]; decide) hnot
    · exact absurd (by rw [h.1]; decide) hnot
    · exact absurd (by rw [h.1]; decide) hnot
    · exact ⟨more, h.2, hargs, by rw [hb, h.2, hargs]⟩

/-- Witness of C11, amended, on the line `"pwd x y > out"`: when `out` can be
opened `ashPwd` is called once with the argument `"x"` on that file, which is
then closed; when it cannot, `ashPwd` is called once with the argument `"x"`
and the null pointer. -/
theorem dispatch_by_registry_witness :
    ashMainLoopBody (fun _ => true) [] "pwd x y > out".toList =
        ⟨["pwd x y > out".toList],
          [Event.owrite ['\n'], Event.fopen "out".toList,
            Event.call Builtin.ashPwd "x".toList (some "out".toList),
            Event.fclose "out".toList], Outcome.next⟩
    ∧ ashMainLoopBody (fun _ => false) [] "pwd x y > out".toList =
        ⟨["pwd x y > out".toList],
          [Event.owrite ['\n'], Event.fopen "out".toList,
            Event.callNull Builtin.ashPwd "x".toList], Outcome.undefined⟩ := by
  have htok : ashParseCmdLine "pwd x y > out".toList ' '
      = "pwd".toList :: ["x".toList, "y".toList, ">".toList, "out".toList] := by
    rw [ashParseCmdLine_eq_tokensRun]; decide
  have hx : extractRedirect (ashParseCmdLine "pwd x y > out".toList ' ')
      = (["pwd".toList, "x".toList, "y".toList], true, "out".toList) := by
    rw [htok]; decide
  have hf2 : findCmd "pwd".toList = some (some Builtin.ashPwd) := by decide
  constructor
  · obtain ⟨f, more, hf, hargs, hb⟩ := (dispatch_by_registry (fun _ => true) []
      "pwd x y > out".toList "pwd".toList _ _ true "out".toList htok hx (by decide)).1
      (by decide)
    rw [hf2] at hf
    have e1 : f = Builtin.ashPwd := (Option.some.inj (Option.some.inj hf)).symm
    have e2 : more = ["x".toList, "y".toList] := (List.cons.inj hargs).2.symm
    subst e1 e2
    rw [hb]
    rfl
  · obtain ⟨f, more, hf, hargs, hb⟩ := (dispatch_by_registry (fun _ => false) []
      "pwd x y > out".toList "pwd".toList _ _ true "out".toList htok hx (by decide)).1
      (by decide)
    rw [hf2] at hf
    have e1 : f = Builtin.ashPwd := (Option.some.inj (Option.some.inj hf)).symm
    have e2 : more = ["x".toList, "y".toList] := (List.cons.inj hargs).2.symm
    subst e1 e2
    rw [hb]
    rfl

/-- C12. Exit: for a line that passes the redirection syntax check and whose
command name is `exit`, the iteration ends with `return`. No handler is
called and no external execution is requested (the only effects are the
newline echo and, with a redirection, the opening of the file), and the loop
reads none of the lines that would follow. -/
theorem exit_terminates (canOpen : Str → Bool) (cmdHistory : List Str) (cmdline : Str) (more : List Str)
    (redirect : Bool) (rfile : Str) (lines : List Str)
    (hx : extractRedirect (ashParseCmdLine cmdline ' ')
      = ("exit".toList :: more, redirect, rfile))
    (hsyn : ¬ (redirect = true ∧ rfile = [])) :
    ashMainLoopBody canOpen cmdHistory cmdline =
        ⟨addCmdToHistory cmdHistory cmdline,
          [Event.owrite ['\n']] ++ (if redirect then [Event.fopen rfile] else []),
          Outcome.exit⟩
    ∧ ashMainLoop canOpen cmdHistory (cmdline :: lines) =
        ⟨addCmdToHistory cmdHistory cmdline,
          [Event.owrite ['\n']] ++ (if redirect then [Event.fopen rfile] else []),
          lines, Outcome.exit⟩ := by
  have hb := ashMainLoopBody_dispatch canOpen cmdHistory cmdline "exit".toList more redirect rfile hx hsyn
  have hf : findCmd "exit".toList = some none := by decide
  rw [hf] at hb
  simp only [if_true] at hb
  refine ⟨hb, ?_⟩
  simp only [ashMainLoop, hb]

/-- Witness of C12 on the line `"exit"` followed by the line `"ls"`. -/
theorem exit_terminates_witness :
    ashMainLoopBody (fun _ => true) [] "exit".toList
        = ⟨["exit".toList], [Event.owrite ['\n']], Outcome.exit⟩
    ∧ ashMainLoop (fun _ => true) [] ["exit".toList, "ls".toList]
        = ⟨["exit".toList], [Event.owrite ['\n']], ["ls".toList], Outcome.exit⟩ := by
  have hx : extractRedirect (ashParseCmdLine "exit".toList ' ')
      = ("exit".toList :: [], false, []) := by
    rw [ashParseCmdLine_eq_tokensRun]; decide
  exact exit_terminates (fun _ => true) [] "exit".toList [] false [] ["ls".toList] hx (by decide)

/-- C19. History records every submitted non-empty line before it is parsed:
an iteration leaves the history as it was when the line is empty, and equal
to `addCmdToHistory` of the old history and the line otherwise (the line is
its last entry, verbatim), whatever the iteration then does with the line. -/
theorem history_recorded (canOpen : Str → Bool) (cmdHistory : List Str) (cmdline : Str) :
    (ashMainLoopBody canOpen cmdHistory cmdline).cmdHistory
        = (if cmdline = [] then cmdHistory else addCmdToHistory cmdHistory cmdline)
    ∧ (addCmdToHistory cmdHistory cmdline).getLast? = some cmdline := by
  constructor
  · cases cmdline with
    | nil => simp [ashMainLoopBody]
    | cons a b =>
      have hne : (a :: b).isEmpty = false := rfl
      have hif : (if (a :: b) = [] then cmdHistory else addCmdToHistory cmdHistory (a :: b))
          = addCmdToHistory cmdHistory (a :: b) := if_neg (List.cons_ne_nil a b)
      rw [hif]
      unfold ashMainLoopBody
      simp only [hne, Bool.false_eq_true, if_false]
      repeat' split
      all_goals rfl
  · unfold addCmdToHistory
    simp

/-- C15, the code at the failing inputs. With a redirection target, an
external command (`"date > out.txt"`) and `exit` (`"exit > out.txt"`) open the
file in the shell process and never close it: the iteration ends, and the
loop goes to the next line, with no `fclose`. Only the built-in branch closes
the file. -/
theorem redirect_file_left_open :
    ashMainLoopBody (fun _ => true) [] "date > out.txt".toList =
        ⟨["date > out.txt".toList],
          [Event.owrite ['\n'], Event.fopen "out.txt".toList,
            Event.executeCmd "date".toList ["date".toList] "out.txt".toList], Outcome.next⟩
    ∧ ashMainLoopBody (fun _ => true) [] "exit > out.txt".toList =
        ⟨["exit > out.txt".toList],
          [Event.owrite ['\n'], Event.fopen "out.txt".toList], Outcome.exit⟩
    ∧ ashMainLoopBody (fun _ => true) [] "pwd > out.txt".toList =
        ⟨["pwd > out.txt".toList],
          [Event.owrite ['\n'], Event.fopen "out.txt".toList,
            Event.call Builtin.ashPwd [] (some "out.txt".toList),
            Event.fclose "out.txt".toList], Outcome.next⟩ := by
  refine ⟨?_, ?_, ?_⟩
  · unfold ashMainLoopBody
    rw [ashParseCmdLine_eq_tokensRun]; decide
  · unfold ashMainLoopBody
    rw [ashParseCmdLine_eq_tokensRun]; decide
  · unfold ashMainLoopBody
    rw [ashParseCmdLine_eq_tokensRun]; decide

/-- C18, the code at the failing input. On the non-empty line `"> out"` the
extraction leaves an empty argument list with the target `out`, so the syntax
check is passed, the file is opened, and the registry lookup reads `args[0]`
from an empty vector. -/
theorem command_name_missing :
    extractRedirect (ashParseCmdLine "> out".toList ' ') = ([], true, "out".toList)
    ∧ ashMainLoopBody (fun _ => true) [] "> out".toList =
        ⟨["> out".toList], [Event.owrite ['\n'], Event.fopen "out".toList],
          Outcome.undefined⟩ := by
  refine ⟨?_, ?_⟩
  · rw [ashParseCmdLine_eq_tokensRun]; decide
  · unfold ashMainLoopBody
    rw [ashParseCmdLine_eq_tokensRun]; decide

/-- The switch keeps the cursor within `[0, length]`. -/
theorem keyStep_index_range (cmdHistory : List Str) (c : Char) (st st1 : EditState)
    (h : keyStep cmdHistory c st = some st1)
    (h0 : 0 ≤ st.index) (h1 : st.index ≤ (cmdHistory.length : Int)) :
    0 ≤ st1.index ∧ st1.index ≤ (cmdHistory.length : Int) := by
  unfold keyStep at h
  split at h
  · split at h
    · simp only [Option.map_eq_some'] at h
      obtain ⟨chars, _, hc⟩ := h
      rw [← hc]; exact ⟨h0, h1⟩
    · simp only [Option.some.injEq] at h
      rw [← h]; exact ⟨h0, h1⟩
  · split at h
    · simp only [Option.map_eq_some'] at h
      obtain ⟨chars, _, hc⟩ := h
      rw [← hc]; exact ⟨h0, h1⟩
    · simp only [Option.some.injEq] at h
      rw [← h]; exact ⟨h0, h1⟩
  · split at h
    · rename_i hge
      simp only [Option.some.injEq] at h
      rw [← h]; simp only; omega
    · simp only [Option.some.injEq] at h
      rw [← h]; exact ⟨h0, h1⟩
  · split at h
    · rename_i hlt
      simp only [Option.some.injEq] at h
      rw [← h]; simp only; omega
    · simp only [Option.some.injEq] at h
      rw [← h]; exact ⟨h0, h1⟩
  · simp only [Option.some.injEq] at h
    rw [← h]; exact ⟨h0, h1⟩

theorem readLoopStates_index_range (cmdHistory : List Str) :
    ∀ (n : Nat) (input : List Char), input.length ≤ n → ∀ st : EditState,
      0 ≤ st.index → st.index ≤ (cmdHistory.length : Int) →
      ∀ s ∈ readLoopStates cmdHistory input st,
        0 ≤ s.index ∧ s.index ≤ (cmdHistory.length : Int) := by
  intro n
  induction n with
  | zero =>
    intro input hl st h0 h1 s hs
    have : input = [] := List.length_eq_zero.mp (Nat.le_zero.mp hl)
    subst this
    simp only [readLoopStates, List.mem_singleton] at hs
    rw [hs]; exact ⟨h0, h1⟩
  | succ n ih =>
    intro input hl st h0 h1 s hs
    cases input with
    | nil =>
      simp only [readLoopStates, List.mem_singleton] at hs
      rw [hs]; exact ⟨h0, h1⟩
    | cons c input =>
      rw [readLoopStates.eq_def] at hs
      simp only [List.mem_cons] at hs
      rcases hs with hs | hs
      · rw [hs]; exact ⟨h0, h1⟩
      · simp only [List.length_cons] at hl
        split at hs
        · simp only [List.mem_singleton] at hs
          rw [hs]; simp
        · split at hs
          · split at hs
            · rename_i x c2 input2
              simp only [List.length_cons] at hl
              split at hs
              · rename_i st1 hk
                have hr := keyStep_index_range cmdHistory c2 st st1 hk h0 h1
                exact ih input2 (by omega) st1 hr.1 hr.2 s hs
              · simp at hs
            · simp at hs
          · split at hs
            · rename_i st1 hk
              have hr := keyStep_index_range cmdHistory c st st1 hk h0 h1
              exact ih input (by omega) st1 hr.1 hr.2 s hs
            · simp at hs

/-- The state with which `readLoop` ends is the last of the states listed by
`readLoopStates`. -/
theorem readLoop_last_state (cmdHistory : List Str) :
    ∀ (n : Nat) (input : List Char), input.length ≤ n →
      ∀ (st s : EditState) (rest : List Char),
        readLoop cmdHistory input st = some (s, rest) →
        (readLoopStates cmdHistory input st).getLast? = some s := by
  intro n
  induction n with
  | zero =>
    intro input hl st s rest h
    have : input = [] := List.length_eq_zero.mp (Nat.le_zero.mp hl)
    subst this
    simp [readLoop] at h
  | succ n ih =>
    intro input hl st s rest h
    cases input with
    | nil => simp [readLoop] at h
    | cons c input =>
      rw [readLoop.eq_def] at h
      rw [readLoopStates.eq_def]
      simp only [List.length_cons] at hl
      simp only at h ⊢
      by_cases hn : c = '\n'
      · simp only [hn, if_true, Option.some.injEq, Prod.mk.injEq] at h ⊢
        rw [← h.1]
        rfl
      · simp only [hn, if_false] at h ⊢
        by_cases he : c = ESC
        · simp only [he, if_true] at h ⊢
          cases input with
          | nil => simp at h
          | cons x input1 =>
            cases input1 with
            | nil => simp at h
            | cons c2 input2 =>
              simp only [List.length_cons] at hl
              simp only at h ⊢
              cases hk : keyStep cmdHistory c2 st with
              | none => simp [hk] at h
              | some st1 =>
                simp only [hk] at h ⊢
                have hi := ih input2 (by omega) st1 s rest h
                cases hl2 : readLoopStates cmdHistory input2 st1 with
                | nil => rw [hl2] at hi; simp at hi
                | cons y t =>
                  rw [hl2] at hi
                  rw [List.getLast?_cons_cons]
                  exact hi
        · simp only [he, if_false] at h ⊢
          cases hk : keyStep cmdHistory c st with
          | none => simp [hk] at h
          | some st1 =>
            simp only [hk] at h ⊢
            have hi := ih input (by omega) st1 s rest h
            cases hl2 : readLoopStates cmdHistory input st1 with
            | nil => rw [hl2] at hi; simp at hi
            | cons y t =>
              rw [hl2] at hi
              rw [List.getLast?_cons_cons]
              exact hi

/-- C14. History cursor range, for a session of `ashReadLine` on any history
and any input. The states the read loop goes through (`ashReadLineStates`)
start with the cursor at the history length, and they are the states of
`ashReadLine`: when it returns, its line and its output are those of the last
state. In every such state the cursor is within `[0, length]`; whenever the
switch calls `handleUpAndDownArrow(chars, i)` there (`arrowCall` gives `i`,
and the step is the one through that call), `0 ≤ i < length` and the condition
of the early return is false; and when `arrowCall` gives no call, the step
leaves the cursor where it is, an arrow key writing the bell only. -/
theorem cursor_range (cmdHistory : List Str) (input : List Char) (st : EditState)
    (hst : st ∈ ashReadLineStates cmdHistory input) :
    (ashReadLineStates cmdHistory input).head?.map (fun s => s.index)
        = some (cmdHistory.length : Int)
    ∧ (∀ (tty : Termios) (r : ReadLineResult),
        ashReadLine (some tty) cmdHistory input = some r →
        ∃ s : EditState, (ashReadLineStates cmdHistory input).getLast? = some s
          ∧ r.cmdline = s.chars ∧ r.out = s.out)
    ∧ 0 ≤ st.index ∧ st.index ≤ (cmdHistory.length : Int)
    ∧ (∀ (c : Char) (i : Int), arrowCall cmdHistory c st = some i →
        keyStep cmdHistory c st
            = some ⟨(handleUpAndDownArrow cmdHistory st.chars i).1, i,
                st.out ++ (handleUpAndDownArrow cmdHistory st.chars i).2⟩
        ∧ 0 ≤ i ∧ i < (cmdHistory.length : Int)
        ∧ ¬ (cmdHistory.length = 0 ∨ i < 0 ∨ i ≥ (cmdHistory.length : Int)))
    ∧ (∀ c : Char, arrowCall cmdHistory c st = none →
        ∃ st1 : EditState, keyStep cmdHistory c st = some st1 ∧ st1.index = st.index
          ∧ (getKeyType c = KeyType.UP_ARROW ∨ getKeyType c = KeyType.DOWN_ARROW →
              st1 = ⟨st.chars, st.index, st.out ++ [Char.ofNat 7]⟩)) := by
  have hr := readLoopStates_index_range cmdHistory input.length input (Nat.le_refl _)
    ⟨[], cmdHistory.length, []⟩ (by simp) (by simp) st hst
  refine ⟨?_, ?_, hr.1, hr.2, ?_, ?_⟩
  · unfold ashReadLineStates
    cases input with
    | nil => rfl
    | cons c cs => rw [readLoopStates.eq_def]; rfl
  · intro tty r hrl
    unfold ashReadLine at hrl
    simp only at hrl
    cases hloop : readLoop cmdHistory input ⟨[], cmdHistory.length, []⟩ with
    | none => simp [hloop] at hrl
    | some p =>
      obtain ⟨s, rest⟩ := p
      simp only [hloop, Option.some.injEq] at hrl
      refine ⟨s, readLoop_last_state cmdHistory input.length input (Nat.le_refl _) _ s rest
        hloop, ?_, ?_⟩
      · rw [← hrl]
        simp only [charsToString_eq, List.nil_append]
      · rw [← hrl]
  · intro c i hc
    unfold arrowCall at hc
    split at hc
    · rename_i hk
      split at hc
      · rename_i hge
        simp only [Option.some.injEq] at hc
        refine ⟨?_, by omega, by omega, by omega⟩
        simp only [keyStep, hk, hc]
        rw [if_pos (by omega)]
      · simp at hc
    · rename_i hk
      split at hc
      · rename_i hlt
        simp only [Option.some.injEq] at hc
        refine ⟨?_, by omega, by omega, by omega⟩
        simp only [keyStep, hk, hc]
        rw [if_pos (by omega)]
      · simp at hc
    · simp at hc
  · intro c hc
    unfold arrowCall at hc
    cases hk : getKeyType c with
    | UP_ARROW =>
      simp only [hk] at hc
      have hge : ¬ (st.index - 1 ≥ 0) := by
        intro h; simp [h] at hc
      exact ⟨⟨st.chars, st.index, st.out ++ bell⟩, by simp only [keyStep, hk, if_neg hge],
        rfl, fun _ => rfl⟩
    | DOWN_ARROW =>
      simp only [hk] at hc
      have hlt : ¬ (st.index + 1 < (cmdHistory.length : Int)) := by
        intro h; simp [h] at hc
      exact ⟨⟨st.chars, st.index, st.out ++ bell⟩, by simp only [keyStep, hk, if_neg hlt],
        rfl, fun _ => rfl⟩
    | REGULAR =>
      obtain ⟨o, ho⟩ := keyStep_edit cmdHistory c st (Or.inl hk)
      exact ⟨_, ho, rfl, fun h => by simp [hk] at h⟩
    | BACKSPACE =>
      obtain ⟨o, ho⟩ := keyStep_edit cmdHistory c st (Or.inr (Or.inl hk))
      exact ⟨_, ho, rfl, fun h => by simp [hk] at h⟩
    | DEL =>
      obtain ⟨o, ho⟩ := keyStep_edit cmdHistory c st (Or.inr (Or.inr hk))
      exact ⟨_, ho, rfl, fun h => by simp [hk] at h⟩

/-- Witness of C14: with the history `["ls"]` and the input `A`, newline, the
loop goes through the states with cursor 1, 0 and 1; in the first of them the
byte `A` makes the call `handleUpAndDownArrow(chars, 0)`, in the second it
makes no call and rings the bell. -/
theorem cursor_range_witness :
    (ashReadLineStates ["ls".toList] "A\n".toList).map (fun s => s.index) = [1, 0, 1]
    ∧ keyStep ["ls".toList] 'A' ⟨[], 1, []⟩ = some ⟨"ls".toList, 0, "ls".toList⟩
    ∧ keyStep ["ls".toList] 'A' ⟨"ls".toList, 0, "ls".toList⟩
        = some ⟨"ls".toList, 0, "ls".toList ++ [Char.ofNat 7]⟩ := by
  have hm1 : (⟨[], 1, []⟩ : EditState) ∈ ashReadLineStates ["ls".toList] "A\n".toList := by
    decide
  have hm2 : (⟨"ls".toList, 0, "ls".toList⟩ : EditState)
      ∈ ashReadLineStates ["ls".toList] "A\n".toList := by decide
  have h1 := (cursor_range ["ls".toList] "A\n".toList ⟨[], 1, []⟩ hm1).2.2.2.2.1 'A' 0
    (by decide)
  obtain ⟨st1, hs1, _, hs3⟩ :=
    (cursor_range ["ls".toList] "A\n".toList ⟨"ls".toList, 0, "ls".toList⟩ hm2).2.2.2.2.2 'A'
      (by decide)
  refine ⟨by decide, ?_, ?_⟩
  · rw [h1.1]; decide
  · rw [hs1, hs3 (Or.inl (by decide))]

/-- C13, the code at the failing input. With the attributes `ICANON` on,
`ECHO` off, `VMIN` 1, `VTIME` 0 captured by `tcgetattr`, the attributes
applied after the read loop have `ECHO` on. Whatever was captured, the last
attributes applied are `ICANON` on, `ECHO` on, `VMIN` 1, `VTIME` 0; with
`VMIN` 4 and `VTIME` 2 captured they are not given back either. -/
theorem terminal_not_restored :
    (ashReadLine (some ⟨true, false, 1, 0⟩) [] "ls\n".toList).map (fun r => r.applied)
        = some [⟨false, false, 1, 0⟩, ⟨true, true, 1, 0⟩]
    ∧ (ashReadLine (some ⟨true, true, 4, 2⟩) [] "ls\n".toList).map (fun r => r.applied)
        = some [⟨false, false, 1, 0⟩, ⟨true, true, 1, 0⟩] := by
  decide

theorem readLoop_escape (cmdHistory : List Str) (x f : Char) (rest : List Char)
    (st : EditState) :
    readLoop cmdHistory (ESC :: x :: f :: rest) st =
      match keyStep cmdHistory f st with
      | some st1 => readLoop cmdHistory rest st1
      | none => none := by
  rw [readLoop.eq_def]
  have h1 : ¬ (ESC = '\n') := by decide
  simp only [if_neg h1, if_true]

/-- C16, counterexample. After `0x1B` and one more byte, the final byte
`0x7F` is not appended to the buffer: it acts as Delete. With `ab` typed
before, the line returned is `"a"`. The final byte `0x08` acts as Backspace
in the same way. -/
theorem escape_final_byte_erases :
    getKeyType (Char.ofNat 0x7F) = KeyType.DEL
    ∧ (ashReadLine (some ⟨true, true, 1, 0⟩) []
        ['a', 'b', Char.ofNat 0x1B, '[', Char.ofNat 0x7F, '\n']).map (fun r => r.cmdline)
        = some ['a']
    ∧ (ashReadLine (some ⟨true, true, 1, 0⟩) []
        ['a', 'b', Char.ofNat 0x1B, '[', Char.ofNat 0x08, '\n']).map (fun r => r.cmdline)
        = some ['a'] := by
  decide

/-- C16, amended. After the byte `0x1B` the read loop reads exactly two more
bytes `x` and `f`, ignores `x`, and classifies `f` with `getKeyType`:
`0x41` is UpArrow, `0x42` DownArrow, `0x7F` Delete, `0x08` Backspace, and
every other value is RegularChar, that is, `f` is appended to the edit buffer
and echoed. The loop then goes on with the bytes after `f`. -/
theorem escape_sequence (cmdHistory : List Str) (x f : Char) (rest : List Char)
    (st : EditState) :
    readLoop cmdHistory (Char.ofNat 0x1B :: x :: f :: rest) st
        = (match keyStep cmdHistory f st with
          | some st1 => readLoop cmdHistory rest st1
          | none => none)
    ∧ (f.toNat = 0x41 → getKeyType f = KeyType.UP_ARROW)
    ∧ (f.toNat = 0x42 → getKeyType f = KeyType.DOWN_ARROW)
    ∧ (f.toNat = 0x7F → getKeyType f = KeyType.DEL)
    ∧ (f.toNat = 0x08 → getKeyType f = KeyType.BACKSPACE)
    ∧ (f.toNat ≠ 0x41 → f.toNat ≠ 0x42 → f.toNat ≠ 0x7F → f.toNat ≠ 0x08 →
        getKeyType f = KeyType.REGULAR
        ∧ keyStep cmdHistory f st = some ⟨st.chars ++ [f], st.index, st.out ++ [f]⟩) := by
  refine ⟨readLoop_escape cmdHistory x f rest st, ?_, ?_, ?_, ?_, ?_⟩
  · intro h; simp [getKeyType, h]
  · intro h; simp [getKeyType, h]
  · intro h; simp [getKeyType, h]
  · intro h; simp [getKeyType, h]
  · intro h1 h2 h3 h4
    have hk : getKeyType f = KeyType.REGULAR := by simp [getKeyType, h1, h2, h3, h4]
    exact ⟨hk, by simp [keyStep, hk]⟩

/-- Witness of C16, amended: after `0x1B`, `[`, the byte `x` is appended and
echoed, and the loop goes on to the newline. -/
theorem escape_sequence_witness :
    readLoop [] (Char.ofNat 0x1B :: '[' :: 'x' :: ['\n']) ⟨['a'], 0, []⟩
        = some (⟨['a', 'x'], 0, ['x']⟩, []) := by
  have h := escape_sequence [] '[' 'x' ['\n'] ⟨['a'], 0, []⟩
  have hk := (h.2.2.2.2.2 (by decide) (by decide) (by decide) (by decide)).2
  rw [h.1, hk]
  decide

theorem find_last_of_last (pre post : List Char) (c : Char) (hc : c ∉ post) :
    find_last_of (pre ++ c :: post) c = pre.length := by
  unfold find_last_of
  have hmem : c ∈ pre ++ c :: post := by simp
  rw [if_pos hmem]
  have hrev : (pre ++ c :: post).reverse = post.reverse ++ c :: pre.reverse := by simp
  have hnot : c ∉ post.reverse := by simpa using hc
  rw [hrev, List.indexOf_append_of_not_mem hnot, List.indexOf_cons_self]
  simp only [List.length_append, List.length_cons, List.length_reverse]
  omega

/-- C17. Prompt text: for a working directory of at most 16 characters
`printPrompt` writes it followed by `>`. For a longer one (shorter than
`2 ^ 32` characters, as every path is) that contains a `/`, it writes `/...`,
then the suffix that starts at the last `/` (the `/` and the last path
component), then `>`. -/
theorem prompt_text (pwd : Str) :
    (pwd.length ≤ 16 → printPrompt pwd = some (pwd ++ ">".toList))
    ∧ (∀ pre post : List Char, pwd = pre ++ '/' :: post → '/' ∉ post →
        16 < pwd.length → pwd.length < 2 ^ 32 →
        printPrompt pwd = some ("/...".toList ++ ('/' :: post) ++ ">".toList)) := by
  constructor
  · intro h
    unfold printPrompt
    rw [if_neg (by omega)]
  · intro pre post hp hpost hlong hshort
    unfold printPrompt
    rw [if_pos hlong]
    have hl : find_last_of pwd '/' = pre.length := by
      rw [hp]; exact find_last_of_last pre post '/' hpost
    have hlen : pwd.length = pre.length + (post.length + 1) := by
      rw [hp]; simp
    have hmod : pre.length % 2 ^ 32 = pre.length := Nat.mod_eq_of_lt (by omega)
    have hsub : substr pwd pre.length pwd.length = some ('/' :: post) := by
      unfold substr
      rw [if_neg (by omega)]
      have hd : List.drop pre.length pwd = '/' :: post := by
        rw [hp]; simp
      rw [hd, List.take_of_length_le (by simp only [List.length_cons]; omega)]
    simp only [hl, hmod, hsub]

/-- Witness of C17: a short directory, and a long one with its last component. -/
theorem prompt_text_witness :
    printPrompt "/home/user".toList = some "/home/user>".toList
    ∧ printPrompt "/home/user/projects/ashell".toList = some "/.../ashell>".toList := by
  have h1 := (prompt_text "/home/user".toList).1 (by decide)
  have h2 := (prompt_text "/home/user/projects/ashell".toList).2
    "/home/user/projects".toList "ashell".toList (by decide) (by decide) (by decide)
    (by
      have : "/home/user/projects/ashell".toList.length = 26 := by decide
      rw [this]; norm_num)
  exact ⟨h1, h2⟩

theorem tokensRun_ne_nil (delim : Char) (cs : List Char) :
    ∀ acc : Str, cs ≠ [] ∨ acc ≠ [] → tokensRun delim cs acc ≠ [] := by
  induction cs with
  | nil =>
    intro acc h
    rcases h with h | h
    · exact absurd rfl h
    · simp [tokensRun, h]
  | cons c cs ih =>
    intro acc _
    by_cases hc : c = delim
    · simp [tokensRun, hc]
    · simp only [tokensRun, hc, if_false]
      exact ih (acc ++ [c]) (Or.inr (by simp))

theorem intercalate_cons_of_ne_nil (sep x : List Char) (l : List (List Char)) (hl : l ≠ []) :
    List.intercalate sep (x :: l) = x ++ sep ++ List.intercalate sep l := by
  cases l with
  | nil => exact absurd rfl hl
  | cons y t => simp [List.intercalate, List.intersperse]

theorem intercalate_tokensRun_keep (delim : Char) (cs : List Char) :
    ∀ acc : Str, delim ∉ acc → (acc ++ cs).getLast? ≠ some delim →
      List.intercalate [delim] (tokensRun delim cs acc) = acc ++ cs := by
  induction cs with
  | nil =>
    intro acc _ _
    by_cases h : acc = []
    · simp [tokensRun, h, List.intercalate]
    · simp [tokensRun, h, List.intercalate]
  | cons c cs ih =>
    intro acc hacc hlast
    by_cases hc : c = delim
    · subst hc
      have hcs : cs ≠ [] := by
        intro he
        apply hlast
        rw [he]; simp
      simp only [tokensRun, if_true]
      rw [intercalate_cons_of_ne_nil _ _ _ (tokensRun_ne_nil c cs [] (Or.inl hcs))]
      have hl2 : ([] ++ cs).getLast? ≠ some c := by
        intro he
        apply hlast
        rw [List.nil_append] at he
        cases cs with
        | nil => exact absurd rfl hcs
        | cons y t => simp [List.getLast?_append, List.getLast?_cons_cons, he]
      rw [ih [] (by simp) hl2]
      simp
    · simp only [tokensRun, hc, if_false]
      have hacc2 : delim ∉ acc ++ [c] := by
        simp only [List.mem_append, List.mem_singleton, not_or]
        exact ⟨hacc, fun h => hc h.symm⟩
      have hl2 : (acc ++ [c] ++ cs).getLast? ≠ some delim := by
        simpa using hlast
      rw [ih (acc ++ [c]) hacc2 hl2]
      simp

theorem intercalate_tokensRun_strip (delim : Char) (t : List Char) :
    ∀ acc : Str, delim ∉ acc →
      List.intercalate [delim] (tokensRun delim (t ++ [delim]) acc) = acc ++ t := by
  induction t with
  | nil =>
    intro acc _
    simp [tokensRun, List.intercalate]
  | cons c t ih =>
    intro acc hacc
    have e : (c :: t) ++ [delim] = c :: (t ++ [delim]) := rfl
    rw [e]
    by_cases hc : c = delim
    · subst hc
      simp only [tokensRun, if_true]
      rw [intercalate_cons_of_ne_nil _ _ _
        (tokensRun_ne_nil c (t ++ [c]) [] (Or.inl (by simp)))]
      rw [ih [] (by simp)]
      simp
    · simp only [tokensRun, hc, if_false]
      have hacc2 : delim ∉ acc ++ [c] := by
        simp only [List.mem_append, List.mem_singleton, not_or]
        exact ⟨hacc, fun h => hc h.symm⟩
      rw [ih (acc ++ [c]) hacc2]
      simp

/-- C20. Tokenizer round trip: for a line that does not end with a space,
joining the tokens of `ashParseCmdLine(s, ' ')` with single spaces gives the
line back; for a line `t ++ " "` that ends with a space, the join gives `t`,
the line without that one trailing space. -/
theorem tokenizer_round_trip (s : Str) :
    (s.getLast? ≠ some ' ' → List.intercalate [' '] (ashParseCmdLine s ' ') = s)
    ∧ (∀ t : Str, s = t ++ [' '] → List.intercalate [' '] (ashParseCmdLine s ' ') = t) := by
  constructor
  · intro h
    rw [ashParseCmdLine_eq_tokensRun]
    have := intercalate_tokensRun_keep ' ' s [] (by simp) (by simpa using h)
    simpa using this
  · intro t ht
    rw [ashParseCmdLine_eq_tokensRun, ht]
    have := intercalate_tokensRun_strip ' ' t [] (by simp)
    simpa using this

/-- Witness of C20 on the lines `" ls  -l"` and `"ls  "`. -/
theorem tokenizer_round_trip_witness :
    List.intercalate [' '] (ashParseCmdLine " ls  -l".toList ' ') = " ls  -l".toList
    ∧ List.intercalate [' '] (ashParseCmdLine "ls  ".toList ' ') = "ls ".toList :=
  ⟨(tokenizer_round_trip " ls  -l".toList).1 (by decide),
    (tokenizer_round_trip "ls  ".toList).2 "ls ".toList (by decide)⟩

end Ashell
